import Mathlib

/-!
Verification of the `dgut` tree query engine (`Tree`, `DirInfo`, `Where`,
`where0`) of wrstat against its specification.

The query engine itself (`tree.go`) is embedded directly from the source.
The underlying database (`DB.DirInfo` / `DB.Children`, created by
`DB.Store()`) is not part of the sources at hand, so it is modelled from the
spec (§3, §4.2): an immutable set of discovered directory paths, a filtered
count/size lookup for each, and a parent → immediate-children index.  Child
paths in the index are immediate subdirectories of their parent, so a
child's path is strictly longer than its parent's — this is why the
collapsing loop in `where0` terminates in the real program, and we use the
same measure (an upper bound on remaining path length growth) as explicit
structural fuel, proving below that the fuel never runs out on well-formed
stores, so `where0` computes exactly the unbounded loop of the source.
-/

namespace Dgut

/-- Modelled from the spec (§3): a filter is three independent inclusion
sets (group ids, user ids, file types), each empty meaning match-all.  The
tree query engine never inspects a filter; it only passes it through to the
store's lookups. -/
structure Filter where
  GIDs : List Nat
  UIDs : List Nat
  FTs : List Nat
deriving DecidableEq

/-- Modelled from the spec (§4.2): the read-only store.  `dirs` is the set
of discovered directories; `agg d f` is the filtered (count, size) rollup
for directory `d` under filter `f` (meaningful when `d ∈ dirs`);
`childIdx` is the parent → immediate-child-paths index. -/
structure DB where
  dirs : List String
  agg : String → Filter → Nat × Nat
  childIdx : List (String × List String)

/-- Modelled from the spec (§4.2): `lookup(directory, filter)`, returning
NotFound (here `none`) exactly when the directory was never discovered. -/
def DB.DirInfo (db : DB) (dir : String) (f : Filter) : Option (Nat × Nat) :=
  if dir ∈ db.dirs then some (db.agg dir f) else none

/-- Modelled from the spec (§4.2): `children(directory)`, the immediate
children previously linked; empty sequence (not an error) if none. -/
def DB.Children (db : DB) (dir : String) : List String :=
  match db.childIdx.find? (fun p => p.1 == dir) with
  | some p => p.2
  | none => []

/-- Well-formedness of the store, from the spec (§3): every child listed in
the children index was itself discovered (it contains at least one
observation beneath it), and is an immediate subdirectory of its parent,
hence has a strictly longer path. -/
def DB.WF (db : DB) : Prop :=
  ∀ p ∈ db.childIdx, ∀ c ∈ p.2, c ∈ db.dirs ∧ p.1.length < c.length

instance (db : DB) : Decidable db.WF := by
  unfold DB.WF; infer_instance

/-- An upper bound on the path length of any discovered directory. -/
def DB.maxLen (db : DB) : Nat :=
  db.dirs.foldr (fun d m => max d.length m) 0

-- From here on everything is embedded from the source (`tree.go`).

/-- DirCountSize holds nested file count and size information on a
directory. -/
structure DirCountSize where
  Dir : String
  Count : Nat
  Size : Nat
deriving DecidableEq

/-- DirInfo holds nested file count and size information on a directory,
and also its immediate child directories. -/
structure DirInfo where
  Current : DirCountSize
  Children : List DirCountSize
deriving DecidableEq

/-- IsSameAsChild tells you if this DirInfo has only 1 child, and the child
has the same file count. -/
def DirInfo.IsSameAsChild (d : DirInfo) : Bool :=
  d.Children.length == 1 && (d.Children.headD ⟨"", 0, 0⟩).Count == d.Current.Count

/-- Tree is used to do high-level queries on DB.Store() database files. -/
structure Tree where
  db : DB

/-- getDirCountSizeInfo accesses the database to retrieve the count and
size info for a given directory and filter. -/
def Tree.getDirCountSizeInfo (t : Tree) (dir : String) (f : Filter) :
    Option DirCountSize :=
  match DB.DirInfo t.db dir f with
  | none => none
  | some (c, s) => some ⟨dir, c, s⟩

/-- addChildInfo collects DirCountSize info of the given child paths.  If a
child dir has no files in it, it is ignored.  (In the source this appends to
`di.Children` in place and returns an error; here it returns the resulting
children list, `none` standing for the error case.) -/
def Tree.addChildInfo (t : Tree) (children : List String) (f : Filter) :
    Option (List DirCountSize) :=
  match children with
  | [] => some []
  | child :: rest =>
    match Tree.getDirCountSizeInfo t child f with
    | none => none
    | some dcs =>
      match Tree.addChildInfo t rest f with
      | none => none
      | some acc => some (if 0 < dcs.Count then dcs :: acc else acc)

/-- DirInfo tells you the total number of files and their total size nested
under the given directory, plus the same for its immediate children that
have files passing the filter.  Returns `none` (an error) if dir doesn't
exist. -/
def Tree.DirInfo (t : Tree) (dir : String) (f : Filter) : Option DirInfo :=
  match Tree.getDirCountSizeInfo t dir f with
  | none => none
  | some dcs =>
    match Tree.addChildInfo t (DB.Children t.db dcs.Dir) f with
    | none => none
    | some cs => some ⟨dcs, cs⟩

/-- The collapsing loop of `where0`: while the current DirInfo is the same
as its single child, move to that child.  The source runs this as an
unbounded loop; here the loop carries explicit fuel, and we prove that on a
well-formed store the fuel below never runs out, because every collapse
step moves to a strictly longer path bounded by `DB.maxLen`.  The `none`
results model the source's unreachable error branches (the nolint:errcheck
comments in `where0`). -/
def Tree.where0Go (t : Tree) (f : Filter) : Nat → String → Option Dgut.DirInfo
  | fuel, dir =>
    match Tree.DirInfo t dir f with
    | none => none
    | some di =>
      if di.IsSameAsChild then
        match fuel with
        | 0 => none
        | n + 1 => Tree.where0Go t f n (di.Children.headD ⟨"", 0, 0⟩).Dir
      else some di

/-- where0 is the implementation of Where() for a depth of 0. -/
def Tree.where0 (t : Tree) (dir : String) (f : Filter) : Option Dgut.DirInfo :=
  Tree.where0Go t f (DB.maxLen t.db + 1 - dir.length) dir

/-- One pass of the inner loop of `Where`: collapse every frontier entry,
collecting the collapsed currents (appended to the results) and the next
frontier. -/
def Tree.whereStep (t : Tree) (f : Filter) :
    List DirCountSize → Option (List DirCountSize × List DirCountSize)
  | [] => some ([], [])
  | dcs :: rest =>
    match Tree.where0 t dcs.Dir f with
    | none => none
    | some diChild =>
      match Tree.whereStep t f rest with
      | none => none
      | some (cs, next) => some (diChild.Current :: cs, diChild.Children ++ next)

/-- The outer (depth-bounded) loop of `Where`. -/
def Tree.whereLoop (t : Tree) (f : Filter) :
    Nat → List DirCountSize → List DirCountSize → Option (List DirCountSize)
  | 0, dcss, _ => some dcss
  | n + 1, dcss, children =>
    match Tree.whereStep t f children with
    | none => none
    | some (cs, next) => Tree.whereLoop t f n (dcss ++ cs) next

/-- The sort order used by `sort.Sort(dcss)`: `Less(i,j) = d[i].Size >
d[j].Size`, i.e. an element comes before another when its size is at least
as large (largest first). -/
def DCSs.sortLess (a b : DirCountSize) : Prop := b.Size ≤ a.Size

instance : DecidableRel DCSs.sortLess := fun a b => Nat.decLe b.Size a.Size

instance : IsTotal DirCountSize DCSs.sortLess :=
  ⟨fun a b => Nat.le_total b.Size a.Size⟩

instance : IsTrans DirCountSize DCSs.sortLess :=
  ⟨fun _ _ _ h h' => Nat.le_trans h' h⟩

/-- `sort.Sort(dcss)` with the comparator above: a deterministic sort
realising the same contract (a permutation of the input that is
non-increasing in size). -/
def DCSs.sort (l : List DirCountSize) : List DirCountSize :=
  List.insertionSort DCSs.sortLess l

/-- Where tells you where files are nested under dir that pass the filter,
to the given depth, sorted by size, largest first.  The Go `depth` is an
`int`; a negative depth runs the expansion loop zero times, which
`Int.toNat` reproduces. -/
def Tree.Where (t : Tree) (dir : String) (f : Filter) (depth : Int) :
    Option (List DirCountSize) :=
  match Tree.where0 t dir f with
  | none => none
  | some di =>
    match Tree.whereLoop t f depth.toNat [di.Current] di.Children with
    | none => none
    | some dcss => some (DCSs.sort dcss)

/-- The iterated collapse described by the spec (§4.4 step 1): starting
from a DirInfo, repeatedly replace it with the DirInfo of its single
qualifying child whenever there is exactly one qualifying child whose
filtered count equals the current directory's filtered count, stopping as
soon as that condition fails. -/
inductive CollapseReaches (t : Tree) (f : Filter) : DirInfo → DirInfo → Prop where
  | done : ∀ di, di.IsSameAsChild = false → CollapseReaches t f di di
  | step : ∀ di c di' dres, di.Children = [c] → c.Count = di.Current.Count →
      Tree.DirInfo t c.Dir f = some di' → CollapseReaches t f di' dres →
      CollapseReaches t f di dres

-- A concrete store used to witness the theorems below (the spec's
-- Scenario A file tree, all under one group/user/type).

def egAgg (d : String) : Nat × Nat :=
  if d = "/" then (6, 50)
  else if d = "/a" then (6, 50)
  else if d = "/a/b" then (6, 50)
  else if d = "/a/b/c" then (4, 43)
  else if d = "/a/b/c/d" then (4, 43)
  else if d = "/a/b/c/d/1" then (1, 5)
  else if d = "/a/b/c/d/2" then (2, 28)
  else if d = "/a/b/e" then (2, 7)
  else if d = "/a/b/e/f" then (2, 7)
  else if d = "/a/b/e/f/g" then (2, 7)
  else (0, 0)

def egDB : DB where
  dirs := ["/", "/a", "/a/b", "/a/b/c", "/a/b/c/d", "/a/b/c/d/1",
    "/a/b/c/d/2", "/a/b/e", "/a/b/e/f", "/a/b/e/f/g", "/zz"]
  agg := fun d _ => egAgg d
  childIdx := [("/", ["/a"]), ("/a", ["/a/b"]), ("/a/b", ["/a/b/c", "/a/b/e"]),
    ("/a/b/c", ["/a/b/c/d"]), ("/a/b/c/d", ["/a/b/c/d/1", "/a/b/c/d/2"]),
    ("/a/b/e", ["/a/b/e/f"]), ("/a/b/e/f", ["/a/b/e/f/g"])]

def egTree : Tree := ⟨egDB⟩

def egF : Filter := ⟨[], [], []⟩

-- Characterisations of the store lookups.

lemma DB.lookup_of_mem {db : DB} {dir : String} (f : Filter)
    (h : dir ∈ db.dirs) : DB.DirInfo db dir f = some (db.agg dir f) := by
  simp [DB.DirInfo, h]

lemma DB.lookup_of_not_mem {db : DB} {dir : String} (f : Filter)
    (h : dir ∉ db.dirs) : DB.DirInfo db dir f = none := by
  simp [DB.DirInfo, h]

lemma DB.mem_Children {db : DB} {dir c : String} (h : c ∈ DB.Children db dir) :
    ∃ p ∈ db.childIdx, p.1 = dir ∧ c ∈ p.2 := by
  unfold DB.Children at h
  rcases hf : db.childIdx.find? (fun p => p.1 == dir) with _ | p
  · rw [hf] at h; simp at h
  · rw [hf] at h
    refine ⟨p, List.mem_of_find?_eq_some hf, ?_, h⟩
    have := List.find?_some hf
    simpa using this

lemma DB.WF.children_mem {db : DB} (hwf : db.WF) {dir c : String}
    (h : c ∈ DB.Children db dir) : c ∈ db.dirs := by
  obtain ⟨p, hp, hp1, hc⟩ := DB.mem_Children h
  exact (hwf p hp c hc).1

lemma DB.WF.children_longer {db : DB} (hwf : db.WF) {dir c : String}
    (h : c ∈ DB.Children db dir) : dir.length < c.length := by
  obtain ⟨p, hp, hp1, hc⟩ := DB.mem_Children h
  have := (hwf p hp c hc).2
  rwa [hp1] at this

lemma DB.length_le_maxLen {db : DB} {d : String} (h : d ∈ db.dirs) :
    d.length ≤ DB.maxLen db := by
  suffices H : ∀ l : List String, d ∈ l →
      d.length ≤ l.foldr (fun s m => max s.length m) 0 from H _ h
  intro l hl
  induction l with
  | nil => simp at hl
  | cons a l ih =>
    rcases List.mem_cons.1 hl with rfl | h'
    · exact Nat.le_max_left _ _
    · exact Nat.le_trans (ih h') (Nat.le_max_right _ _)

-- Characterisations of the engine's DirInfo construction.

lemma Tree.getDirCountSizeInfo_of_mem {t : Tree} {dir : String} (f : Filter)
    (h : dir ∈ t.db.dirs) :
    Tree.getDirCountSizeInfo t dir f =
      some ⟨dir, (t.db.agg dir f).1, (t.db.agg dir f).2⟩ := by
  simp [Tree.getDirCountSizeInfo, DB.lookup_of_mem f h]

lemma Tree.getDirCountSizeInfo_of_not_mem {t : Tree} {dir : String} (f : Filter)
    (h : dir ∉ t.db.dirs) : Tree.getDirCountSizeInfo t dir f = none := by
  simp [Tree.getDirCountSizeInfo, DB.lookup_of_not_mem f h]

/-- The qualifying-children list computed by a successful `addChildInfo`
run: each listed child with strictly positive filtered count, paired with
its own filtered count and size, in index order. -/
def qualChildren (t : Tree) (children : List String) (f : Filter) :
    List DirCountSize :=
  children.filterMap fun c =>
    if 0 < (t.db.agg c f).1 then some ⟨c, (t.db.agg c f).1, (t.db.agg c f).2⟩
    else none

lemma Tree.addChildInfo_of_mem {t : Tree} (f : Filter) :
    ∀ {children : List String}, (∀ c ∈ children, c ∈ t.db.dirs) →
      Tree.addChildInfo t children f = some (qualChildren t children f) := by
  intro children
  induction children with
  | nil => intro _; simp [Tree.addChildInfo, qualChildren]
  | cons c rest ih =>
    intro h
    have hc : c ∈ t.db.dirs := h c (List.mem_cons_self c rest)
    have hrest := ih fun x hx => h x (List.mem_cons_of_mem c hx)
    simp only [Tree.addChildInfo, Tree.getDirCountSizeInfo_of_mem f hc, hrest,
      qualChildren, List.filterMap_cons]
    by_cases h0 : 0 < (t.db.agg c f).1 <;> simp [h0, qualChildren]

lemma Tree.addChildInfo_mem_shape {t : Tree} {f : Filter} :
    ∀ {children : List String} {res : List DirCountSize},
      Tree.addChildInfo t children f = some res →
      ∀ dcs ∈ res, dcs.Dir ∈ children ∧
        dcs.Count = (t.db.agg dcs.Dir f).1 ∧
        dcs.Size = (t.db.agg dcs.Dir f).2 ∧ 0 < dcs.Count := by
  intro children
  induction children with
  | nil =>
    intro res h dcs hm
    simp [Tree.addChildInfo] at h
    subst h; simp at hm
  | cons c rest ih =>
    intro res h dcs hm
    simp only [Tree.addChildInfo] at h
    rcases hg : Tree.getDirCountSizeInfo t c f with _ | dcs0
    · rw [hg] at h; simp at h
    rw [hg] at h
    rcases ha : Tree.addChildInfo t rest f with _ | acc
    · rw [ha] at h; simp at h
    rw [ha] at h
    simp only [Option.some.injEq] at h
    have hdcs0 : dcs0 = ⟨c, (t.db.agg c f).1, (t.db.agg c f).2⟩ := by
      rcases hdb : DB.DirInfo t.db c f with _ | cs
      · simp [Tree.getDirCountSizeInfo, hdb] at hg
      · have : c ∈ t.db.dirs := by
          by_contra hn
          rw [DB.lookup_of_not_mem f hn] at hdb; exact Option.noConfusion hdb
        rw [Tree.getDirCountSizeInfo_of_mem f this] at hg
        exact (Option.some.injEq _ _ ▸ hg).symm
    subst hdcs0
    by_cases h0 : 0 < (t.db.agg c f).1
    · rw [if_pos h0] at h
      subst h
      rcases List.mem_cons.1 hm with rfl | hm'
      · exact ⟨List.mem_cons_self _ _, rfl, rfl, h0⟩
      · obtain ⟨h1, h2⟩ := ih ha dcs hm'
        exact ⟨List.mem_cons_of_mem _ h1, h2⟩
    · rw [if_neg h0] at h
      subst h
      obtain ⟨h1, h2⟩ := ih ha dcs hm
      exact ⟨List.mem_cons_of_mem _ h1, h2⟩

lemma Tree.DirInfo_of_mem {t : Tree} {dir : String} (f : Filter)
    (hwf : t.db.WF) (h : dir ∈ t.db.dirs) :
    Tree.DirInfo t dir f =
      some ⟨⟨dir, (t.db.agg dir f).1, (t.db.agg dir f).2⟩,
        qualChildren t (DB.Children t.db dir) f⟩ := by
  have hch : ∀ c ∈ DB.Children t.db dir, c ∈ t.db.dirs :=
    fun c hc => hwf.children_mem hc
  simp [Tree.DirInfo, Tree.getDirCountSizeInfo_of_mem f h,
    Tree.addChildInfo_of_mem f hch]

lemma Tree.DirInfo_of_not_mem {t : Tree} {dir : String} (f : Filter)
    (h : dir ∉ t.db.dirs) : Tree.DirInfo t dir f = none := by
  simp [Tree.DirInfo, Tree.getDirCountSizeInfo_of_not_mem f h]

lemma Tree.DirInfo_some_parts {t : Tree} {dir : String} {f : Filter}
    {di : Dgut.DirInfo} (h : Tree.DirInfo t dir f = some di) :
    dir ∈ t.db.dirs ∧
      di.Current = ⟨dir, (t.db.agg dir f).1, (t.db.agg dir f).2⟩ ∧
      Tree.addChildInfo t (DB.Children t.db dir) f = some di.Children := by
  have hmem : dir ∈ t.db.dirs := by
    by_contra hn
    rw [Tree.DirInfo_of_not_mem f hn] at h; exact Option.noConfusion h
  refine ⟨hmem, ?_⟩
  rw [Tree.DirInfo, Tree.getDirCountSizeInfo_of_mem f hmem] at h
  rcases ha : Tree.addChildInfo t (DB.Children t.db dir) f with _ | cs
  · simp only [ha] at h
    exact Option.noConfusion h
  · simp only [ha, Option.some.injEq] at h
    subst h
    exact ⟨rfl, rfl⟩

lemma DirInfo.isSameAsChild_iff {d : DirInfo} :
    d.IsSameAsChild = true ↔
      ∃ c, d.Children = [c] ∧ c.Count = d.Current.Count := by
  unfold DirInfo.IsSameAsChild
  constructor
  · intro h
    rw [Bool.and_eq_true, beq_iff_eq, beq_iff_eq] at h
    obtain ⟨h1, h2⟩ := h
    obtain ⟨c, hc⟩ := List.length_eq_one.1 h1
    refine ⟨c, hc, ?_⟩
    rw [hc] at h2
    simpa using h2
  · rintro ⟨c, hc, hcount⟩
    rw [hc]
    simp [hcount]

lemma DirInfo.not_isSameAsChild_of_ne_one {d : DirInfo}
    (h : d.Children.length ≠ 1) : d.IsSameAsChild = false := by
  unfold DirInfo.IsSameAsChild
  simp [h]

-- The collapsing loop: with sufficient fuel it computes exactly the
-- iterated collapse described by the spec.

lemma Tree.where0Go_reaches {t : Tree} {f : Filter} (hwf : t.db.WF) :
    ∀ (fuel : Nat) (dir : String) (di : Dgut.DirInfo),
      Tree.DirInfo t dir f = some di →
      DB.maxLen t.db + 1 - dir.length ≤ fuel →
      ∃ dres, Tree.where0Go t f fuel dir = some dres ∧
        CollapseReaches t f di dres := by
  intro fuel
  induction fuel with
  | zero =>
    intro dir di hdi hfuel
    exfalso
    have hmem := (Tree.DirInfo_some_parts hdi).1
    have hlen := DB.length_le_maxLen hmem
    omega
  | succ n ih =>
    intro dir di hdi hfuel
    by_cases hs : di.IsSameAsChild = true
    · obtain ⟨c, hc, hcount⟩ := DirInfo.isSameAsChild_iff.1 hs
      obtain ⟨hmem, hcur, hadd⟩ := Tree.DirInfo_some_parts hdi
      have hcdir : c.Dir ∈ DB.Children t.db dir := by
        have := Tree.addChildInfo_mem_shape hadd c (by rw [hc]; simp)
        exact this.1
      have hcmem : c.Dir ∈ t.db.dirs := hwf.children_mem hcdir
      have hclong : dir.length < c.Dir.length := hwf.children_longer hcdir
      obtain ⟨di', hdi'⟩ :
          ∃ di', Tree.DirInfo t c.Dir f = some di' :=
        ⟨_, Tree.DirInfo_of_mem f hwf hcmem⟩
      have hfuel' : DB.maxLen t.db + 1 - c.Dir.length ≤ n := by
        have := DB.length_le_maxLen hmem
        omega
      obtain ⟨dres, hres, hreach⟩ := ih c.Dir di' hdi' hfuel'
      refine ⟨dres, ?_, ?_⟩
      · have hhead : (di.Children.headD ⟨"", 0, 0⟩) = c := by rw [hc]; rfl
        rw [Tree.where0Go]
        simp only [hdi, hs, if_true, hhead]
        exact hres
      · exact CollapseReaches.step di c di' dres hc hcount hdi' hreach
    · refine ⟨di, ?_, CollapseReaches.done di (by simpa using hs)⟩
      rw [Tree.where0Go]
      simp [hdi, hs]

lemma Tree.where0_reaches {t : Tree} {f : Filter} {dir : String}
    {di : Dgut.DirInfo} (hwf : t.db.WF) (hdi : Tree.DirInfo t dir f = some di) :
    ∃ dres, Tree.where0 t dir f = some dres ∧ CollapseReaches t f di dres :=
  Tree.where0Go_reaches hwf _ dir di hdi (Nat.le_refl _)

lemma Tree.where0_of_not_mem {t : Tree} {dir : String} (f : Filter)
    (h : dir ∉ t.db.dirs) : Tree.where0 t dir f = none := by
  rw [Tree.where0, Tree.where0Go, Tree.DirInfo_of_not_mem f h]

lemma Tree.where0Go_some_DirInfo {t : Tree} {f : Filter} :
    ∀ {fuel : Nat} {dir : String} {dres : Dgut.DirInfo},
      Tree.where0Go t f fuel dir = some dres →
      ∃ d1, Tree.DirInfo t d1 f = some dres := by
  intro fuel
  induction fuel with
  | zero =>
    intro dir dres h
    rw [Tree.where0Go] at h
    rcases hdi : Tree.DirInfo t dir f with _ | di
    · simp only [hdi] at h
      exact Option.noConfusion h
    · simp only [hdi] at h
      by_cases hs : di.IsSameAsChild = true
      · simp [hs] at h
      · simp only [if_neg hs] at h
        obtain rfl := Option.some.inj h
        exact ⟨dir, hdi⟩
  | succ n ih =>
    intro dir dres h
    rw [Tree.where0Go] at h
    rcases hdi : Tree.DirInfo t dir f with _ | di
    · simp only [hdi] at h
      exact Option.noConfusion h
    · simp only [hdi] at h
      by_cases hs : di.IsSameAsChild = true
      · simp only [hs, if_true] at h
        exact ih h
      · simp only [if_neg hs] at h
        obtain rfl := Option.some.inj h
        exact ⟨dir, hdi⟩

lemma Tree.where0_some_DirInfo {t : Tree} {f : Filter} {dir : String}
    {dres : Dgut.DirInfo} (h : Tree.where0 t dir f = some dres) :
    ∃ d1, Tree.DirInfo t d1 f = some dres :=
  Tree.where0Go_some_DirInfo h

-- Properties of the iterated collapse.

lemma CollapseReaches.count_eq {t : Tree} {f : Filter}
    {di dres : DirInfo} (hr : CollapseReaches t f di dres) :
    ∀ {s : String}, Tree.DirInfo t s f = some di →
      dres.Current.Count = di.Current.Count := by
  induction hr with
  | done d _ => intro s _; rfl
  | step d c di' dres hc hcount hdi' hr ih =>
    intro s hdi
    have hparts := Tree.DirInfo_some_parts hdi
    have hshape := Tree.addChildInfo_mem_shape hparts.2.2 c (by rw [hc]; simp)
    have hdi'parts := Tree.DirInfo_some_parts hdi'
    have : di'.Current.Count = c.Count := by
      rw [hdi'parts.2.1]
      exact hshape.2.1.symm
    rw [ih hdi', this, hcount]

lemma CollapseReaches.length_le {t : Tree} {f : Filter}
    {di dres : DirInfo} (hr : CollapseReaches t f di dres) :
    ∀ {s : String}, Tree.DirInfo t s f = some di → t.db.WF →
      di.Current.Dir.length ≤ dres.Current.Dir.length := by
  induction hr with
  | done d _ => intro s _ _; exact Nat.le_refl _
  | step d c di' dres hc hcount hdi' hr ih =>
    intro s hdi hwf
    have hparts := Tree.DirInfo_some_parts hdi
    have hshape := Tree.addChildInfo_mem_shape hparts.2.2 c (by rw [hc]; simp)
    have hcdir : c.Dir ∈ DB.Children t.db s := hshape.1
    have hlong : s.length < c.Dir.length := hwf.children_longer hcdir
    have hdi'parts := Tree.DirInfo_some_parts hdi'
    have h1 : d.Current.Dir = s := by rw [hparts.2.1]
    have h2 : di'.Current.Dir = c.Dir := by rw [hdi'parts.2.1]
    have := ih hdi' hwf
    rw [h2] at this
    rw [h1]
    exact Nat.le_trans (Nat.le_of_lt hlong) this

-- Frontier expansion: success and shape of one whereStep pass.

lemma Tree.whereStep_of_mem {t : Tree} {f : Filter} (hwf : t.db.WF) :
    ∀ {ch : List DirCountSize}, (∀ dcs ∈ ch, dcs.Dir ∈ t.db.dirs) →
      ∃ cs next, Tree.whereStep t f ch = some (cs, next) ∧
        (∀ dcs ∈ next, dcs.Dir ∈ t.db.dirs) ∧
        (∀ e ∈ cs, ∃ d di', Tree.where0 t d f = some di' ∧ e = di'.Current) := by
  intro ch
  induction ch with
  | nil =>
    intro _
    exact ⟨[], [], rfl, by simp, by simp⟩
  | cons dcs rest ih =>
    intro h
    have hmem : dcs.Dir ∈ t.db.dirs := h dcs (List.mem_cons_self _ _)
    obtain ⟨di0, hdi0⟩ : ∃ di0, Tree.DirInfo t dcs.Dir f = some di0 :=
      ⟨_, Tree.DirInfo_of_mem f hwf hmem⟩
    obtain ⟨dres, hres, _⟩ := Tree.where0_reaches hwf hdi0
    obtain ⟨cs, next, hstep, hnext, hcs⟩ :=
      ih fun x hx => h x (List.mem_cons_of_mem _ hx)
    refine ⟨dres.Current :: cs, dres.Children ++ next, ?_, ?_, ?_⟩
    · rw [Tree.whereStep]
      simp only [hres, hstep]
    · intro x hx
      rcases List.mem_append.1 hx with hx' | hx'
      · obtain ⟨d1, hd1⟩ := Tree.where0_some_DirInfo hres
        have hparts := Tree.DirInfo_some_parts hd1
        have := Tree.addChildInfo_mem_shape hparts.2.2 x hx'
        exact hwf.children_mem this.1
      · exact hnext x hx'
    · intro e he
      rcases List.mem_cons.1 he with rfl | he'
      · exact ⟨dcs.Dir, dres, hres, rfl⟩
      · exact hcs e he'

-- The outer loop: success, prefix preservation, and the relation between
-- consecutive depths.

lemma Tree.whereLoop_of_mem {t : Tree} {f : Filter} (hwf : t.db.WF) :
    ∀ (n : Nat) {ch : List DirCountSize} (dcss : List DirCountSize),
      (∀ dcs ∈ ch, dcs.Dir ∈ t.db.dirs) →
      ∃ r, Tree.whereLoop t f n dcss ch = some r := by
  intro n
  induction n with
  | zero => intro ch dcss _; exact ⟨dcss, rfl⟩
  | succ m ih =>
    intro ch dcss h
    obtain ⟨cs, next, hstep, hnext, _⟩ := Tree.whereStep_of_mem hwf h
    obtain ⟨r, hr⟩ := ih (dcss ++ cs) hnext
    refine ⟨r, ?_⟩
    rw [Tree.whereLoop]
    split
    · rename_i heq
      rw [hstep] at heq
      exact Option.noConfusion heq
    · rename_i cs' next' heq
      rw [hstep] at heq
      obtain ⟨rfl, rfl⟩ := Prod.mk.injEq .. ▸ Option.some.inj heq
      exact hr

lemma Tree.whereLoop_extends {t : Tree} {f : Filter} :
    ∀ {n : Nat} {ch dcss r : List DirCountSize},
      Tree.whereLoop t f n dcss ch = some r → ∃ ext, r = dcss ++ ext := by
  intro n
  induction n with
  | zero =>
    intro ch dcss r h
    rw [Tree.whereLoop] at h
    obtain rfl := Option.some.inj h
    exact ⟨[], (List.append_nil _).symm⟩
  | succ m ih =>
    intro ch dcss r h
    rw [Tree.whereLoop] at h
    rcases hstep : Tree.whereStep t f ch with _ | p
    · simp only [hstep] at h
      exact Option.noConfusion h
    · simp only [hstep] at h
      obtain ⟨ext, hext⟩ := ih h
      exact ⟨p.1 ++ ext, by rw [hext, List.append_assoc]⟩

lemma Tree.whereStep_some_shape {t : Tree} {f : Filter} :
    ∀ {ch : List DirCountSize} {cs next : List DirCountSize},
      Tree.whereStep t f ch = some (cs, next) →
      ∀ e ∈ cs, ∃ d di', Tree.where0 t d f = some di' ∧ e = di'.Current := by
  intro ch
  induction ch with
  | nil =>
    intro cs next h e he
    rw [Tree.whereStep] at h
    obtain ⟨h1, _⟩ := Prod.mk.injEq .. ▸ Option.some.inj h
    subst h1
    simp at he
  | cons dcs rest ih =>
    intro cs next h e he
    rw [Tree.whereStep] at h
    rcases h0 : Tree.where0 t dcs.Dir f with _ | diChild
    · simp only [h0] at h
      exact Option.noConfusion h
    · simp only [h0] at h
      rcases hrest : Tree.whereStep t f rest with _ | p
      · simp only [hrest] at h
        exact Option.noConfusion h
      · simp only [hrest] at h
        obtain ⟨h1, _⟩ := Prod.mk.injEq .. ▸ Option.some.inj h
        subst h1
        rcases List.mem_cons.1 he with rfl | he'
        · exact ⟨dcs.Dir, diChild, h0, rfl⟩
        · exact ih (by rw [hrest]) e he'

lemma Tree.whereLoop_succ {t : Tree} {f : Filter} :
    ∀ {n : Nat} {ch dcss r : List DirCountSize},
      Tree.whereLoop t f (n + 1) dcss ch = some r →
      ∃ r0 ext, Tree.whereLoop t f n dcss ch = some r0 ∧ r = r0 ++ ext ∧
        ∀ e ∈ ext, ∃ d di', Tree.where0 t d f = some di' ∧ e = di'.Current := by
  intro n
  induction n with
  | zero =>
    intro ch dcss r h
    rw [Tree.whereLoop] at h
    rcases hstep : Tree.whereStep t f ch with _ | p
    · simp only [hstep] at h
      exact Option.noConfusion h
    · simp only [hstep] at h
      rw [Tree.whereLoop] at h
      obtain rfl := Option.some.inj h
      refine ⟨dcss, p.1, rfl, rfl, ?_⟩
      exact Tree.whereStep_some_shape (by rw [hstep])
  | succ m ih =>
    intro ch dcss r h
    rw [Tree.whereLoop] at h
    rcases hstep : Tree.whereStep t f ch with _ | p
    · simp only [hstep] at h
      exact Option.noConfusion h
    · simp only [hstep] at h
      obtain ⟨r0, ext, h0, hr, hext⟩ := ih h
      refine ⟨r0, ext, ?_, hr, hext⟩
      rw [Tree.whereLoop]
      simp only [hstep]
      exact h0

lemma Tree.whereLoop_nil_frontier {t : Tree} {f : Filter} :
    ∀ (n : Nat) (dcss : List DirCountSize),
      Tree.whereLoop t f n dcss [] = some dcss := by
  intro n
  induction n with
  | zero => intro dcss; rfl
  | succ m ih =>
    intro dcss
    rw [Tree.whereLoop]
    split
    · rename_i heq
      exact Option.noConfusion heq
    · rename_i cs' next' heq
      rw [Tree.whereStep] at heq
      obtain ⟨h1, h2⟩ := Prod.mk.injEq .. ▸ Option.some.inj heq
      subst h1; subst h2
      rw [List.append_nil]
      exact ih dcss

-- Basic facts about the sorting pass.

lemma DCSs.sort_perm (l : List DirCountSize) : List.Perm (DCSs.sort l) l :=
  List.perm_insertionSort DCSs.sortLess l

lemma DCSs.sort_sorted (l : List DirCountSize) :
    List.Sorted DCSs.sortLess (DCSs.sort l) :=
  List.sorted_insertionSort DCSs.sortLess l

lemma DCSs.sort_singleton (a : DirCountSize) : DCSs.sort [a] = [a] := rfl

-- Facts about Where as a whole.

lemma Tree.Where_of_not_mem {t : Tree} {dir : String} (f : Filter)
    (depth : Int) (h : dir ∉ t.db.dirs) : Tree.Where t dir f depth = none := by
  rw [Tree.Where]
  simp only [Tree.where0_of_not_mem f h]

lemma Tree.Where_unsorted {t : Tree} {f : Filter} {dir : String}
    {depth : Int} {l : List DirCountSize}
    (h : Tree.Where t dir f depth = some l) :
    ∃ di dcss, Tree.where0 t dir f = some di ∧
      Tree.whereLoop t f depth.toNat [di.Current] di.Children = some dcss ∧
      l = DCSs.sort dcss := by
  rw [Tree.Where] at h
  rcases h0 : Tree.where0 t dir f with _ | di
  · simp only [h0] at h
    exact Option.noConfusion h
  · simp only [h0] at h
    rcases hl : Tree.whereLoop t f depth.toNat [di.Current] di.Children with _ | dcss
    · simp only [hl] at h
      exact Option.noConfusion h
    · simp only [hl] at h
      exact ⟨di, dcss, rfl, hl, (Option.some.inj h).symm⟩

lemma Tree.Where_of_mem {t : Tree} {f : Filter} {dir : String} (depth : Int)
    (hwf : t.db.WF) (hdir : dir ∈ t.db.dirs) :
    ∃ di dcss, Tree.where0 t dir f = some di ∧
      Tree.whereLoop t f depth.toNat [di.Current] di.Children = some dcss ∧
      Tree.Where t dir f depth = some (DCSs.sort dcss) := by
  obtain ⟨di0, hdi0⟩ : ∃ di0, Tree.DirInfo t dir f = some di0 :=
    ⟨_, Tree.DirInfo_of_mem f hwf hdir⟩
  obtain ⟨dres, hres, _⟩ := Tree.where0_reaches hwf hdi0
  have hch : ∀ dcs ∈ dres.Children, dcs.Dir ∈ t.db.dirs := by
    intro dcs hdcs
    obtain ⟨d1, hd1⟩ := Tree.where0_some_DirInfo hres
    have hparts := Tree.DirInfo_some_parts hd1
    have := Tree.addChildInfo_mem_shape hparts.2.2 dcs hdcs
    exact hwf.children_mem this.1
  obtain ⟨dcss, hdcss⟩ :=
    Tree.whereLoop_of_mem hwf depth.toNat [dres.Current] hch
  refine ⟨dres, dcss, hres, hdcss, ?_⟩
  rw [Tree.Where]
  simp only [hres, hdcss]

lemma Tree.Where_zero_eq {t : Tree} {f : Filter} {dir : String}
    {dres : Dgut.DirInfo} (hres : Tree.where0 t dir f = some dres) :
    Tree.Where t dir f 0 = some [dres.Current] := by
  rw [Tree.Where]
  simp only [hres]
  rfl

/-- C1: for every directory present in the store and every filter, the
collapse step of Where (`where0`) returns exactly the DirInfo reached from
`DirInfo(dir, F)` by repeatedly replacing the result with the DirInfo of
its single qualifying child whenever there is exactly one qualifying child
whose filtered count equals the current directory's filtered count,
stopping as soon as that condition fails; in particular, when dir has
exactly one qualifying child with equal filtered count, `Where(dir, F, 0)`
returns the fully collapsed descendant, not dir. -/
theorem where0_is_iterated_collapse (t : Tree) (f : Filter) (dir : String)
    (di : Dgut.DirInfo) (hwf : t.db.WF)
    (hdi : Tree.DirInfo t dir f = some di) :
    ∃ dres, Tree.where0 t dir f = some dres ∧ CollapseReaches t f di dres ∧
      Tree.Where t dir f 0 = some [dres.Current] ∧
      (di.IsSameAsChild = true → dres.Current.Dir ≠ dir) := by
  obtain ⟨dres, hres, hreach⟩ := Tree.where0_reaches hwf hdi
  refine ⟨dres, hres, hreach, Tree.Where_zero_eq hres, ?_⟩
  intro hs heq
  have hlt : dir.length < dres.Current.Dir.length := by
    cases hreach with
    | done d hdone => rw [hs] at hdone; exact Bool.noConfusion hdone
    | step d c di' dres' hc hcount hdi' hr =>
      have hparts := Tree.DirInfo_some_parts hdi
      have hshape := Tree.addChildInfo_mem_shape hparts.2.2 c (by rw [hc]; simp)
      have hclong : dir.length < c.Dir.length := hwf.children_longer hshape.1
      have hle := hr.length_le hdi' hwf
      have hcdir : di'.Current.Dir = c.Dir := by
        rw [(Tree.DirInfo_some_parts hdi').2.1]
      rw [hcdir] at hle
      exact Nat.lt_of_lt_of_le hclong hle
  rw [heq] at hlt
  exact Nat.lt_irrefl _ hlt

theorem where0_is_iterated_collapse_witness :
    ∃ dres, Tree.where0 egTree "/a/b/c" egF = some dres ∧
      CollapseReaches egTree egF
        ⟨⟨"/a/b/c", 4, 43⟩, [⟨"/a/b/c/d", 4, 43⟩]⟩ dres ∧
      Tree.Where egTree "/a/b/c" egF 0 = some [dres.Current] ∧
      (DirInfo.IsSameAsChild ⟨⟨"/a/b/c", 4, 43⟩, [⟨"/a/b/c/d", 4, 43⟩]⟩ = true →
        dres.Current.Dir ≠ "/a/b/c") :=
  where0_is_iterated_collapse egTree egF "/a/b/c"
    ⟨⟨"/a/b/c", 4, 43⟩, [⟨"/a/b/c/d", 4, 43⟩]⟩ (by decide) (by decide)

/-- C6: for every directory present in the store and every filter,
`Where(dir, F, 0)` succeeds and returns exactly one entry, the DirCountSize
of the collapsed starting point. -/
theorem where_depth_zero (t : Tree) (f : Filter) (dir : String)
    (hwf : t.db.WF) (hdir : dir ∈ t.db.dirs) :
    ∃ di, Tree.where0 t dir f = some di ∧
      Tree.Where t dir f 0 = some [di.Current] := by
  obtain ⟨di0, hdi0⟩ : ∃ di0, Tree.DirInfo t dir f = some di0 :=
    ⟨_, Tree.DirInfo_of_mem f hwf hdir⟩
  obtain ⟨dres, hres, _⟩ := Tree.where0_reaches hwf hdi0
  exact ⟨dres, hres, Tree.Where_zero_eq hres⟩

theorem where_depth_zero_witness :
    ∃ di, Tree.where0 egTree "/a/b" egF = some di ∧
      Tree.Where egTree "/a/b" egF 0 = some [di.Current] :=
  where_depth_zero egTree egF "/a/b" (by decide) (by decide)

/-- C8: collapsing preserves the filtered count: the Current.Count of the
DirInfo produced by `where0(dir, F)` equals the Current.Count of the
uncollapsed `DirInfo(dir, F)`, since each collapse step only moves to a
child whose count equals the current directory's count. -/
theorem where0_preserves_count (t : Tree) (f : Filter) (dir : String)
    (di : Dgut.DirInfo) (hwf : t.db.WF)
    (hdi : Tree.DirInfo t dir f = some di) :
    ∃ dres, Tree.where0 t dir f = some dres ∧
      dres.Current.Count = di.Current.Count := by
  obtain ⟨dres, hres, hreach⟩ := Tree.where0_reaches hwf hdi
  exact ⟨dres, hres, hreach.count_eq hdi⟩

theorem where0_preserves_count_witness :
    ∃ dres, Tree.where0 egTree "/" egF = some dres ∧
      dres.Current.Count =
        (DirInfo.Current ⟨⟨"/", 6, 50⟩, [⟨"/a", 6, 50⟩]⟩).Count :=
  where0_preserves_count egTree egF "/"
    ⟨⟨"/", 6, 50⟩, [⟨"/a", 6, 50⟩]⟩ (by decide) (by decide)

/-- C2: `Where(dir, F, depth)` returns an error exactly when the initial
lookup on the originally requested dir is NotFound; on a well-formed store
every later lookup during collapsing and frontier expansion uses a
directory taken from the store's own children index and cannot itself
fail, so no error is produced after the first step. -/
theorem where_error_iff_initial_notfound (t : Tree) (f : Filter)
    (dir : String) (depth : Int) (hwf : t.db.WF) :
    Tree.Where t dir f depth = none ↔ dir ∉ t.db.dirs := by
  constructor
  · intro h hdir
    obtain ⟨di, dcss, _, _, hW⟩ := Tree.Where_of_mem depth hwf hdir
    rw [hW] at h
    exact Option.noConfusion h
  · intro h
    exact Tree.Where_of_not_mem f depth h

theorem where_error_iff_initial_notfound_witness :
    (Tree.Where egTree "/nope" egF 5 = none ↔ "/nope" ∉ egDB.dirs) ∧
    (Tree.Where egTree "/a" egF 5 = none ↔ "/a" ∉ egDB.dirs) :=
  ⟨where_error_iff_initial_notfound egTree egF "/nope" 5 (by decide),
   where_error_iff_initial_notfound egTree egF "/a" 5 (by decide)⟩

/-- C3: for every directory present in the store and every filter, the
Children of `DirInfo(dir, F)` are exactly the immediate children listed by
the store's children index whose filtered count is strictly positive, each
paired with its own filtered count and size; children with zero filtered
count are omitted. -/
theorem dirInfo_children_exact (t : Tree) (f : Filter) (dir : String)
    (hwf : t.db.WF) (hdir : dir ∈ t.db.dirs) :
    ∃ di, Tree.DirInfo t dir f = some di ∧
      di.Children = qualChildren t (DB.Children t.db dir) f ∧
      ∀ c : String,
        (∃ dcs ∈ di.Children, dcs.Dir = c ∧
          dcs.Count = (t.db.agg c f).1 ∧ dcs.Size = (t.db.agg c f).2) ↔
        (c ∈ DB.Children t.db dir ∧ 0 < (t.db.agg c f).1) := by
  have hdi := Tree.DirInfo_of_mem f hwf hdir
  refine ⟨_, hdi, rfl, ?_⟩
  intro c
  constructor
  · rintro ⟨dcs, hm, rfl, _, _⟩
    have hshape := Tree.addChildInfo_mem_shape (Tree.DirInfo_some_parts hdi).2.2 dcs hm
    refine ⟨hshape.1, ?_⟩
    rw [← hshape.2.1]
    exact hshape.2.2.2
  · rintro ⟨hc, h0⟩
    refine ⟨⟨c, (t.db.agg c f).1, (t.db.agg c f).2⟩, ?_, rfl, rfl, rfl⟩
    simp only [qualChildren, List.mem_filterMap]
    exact ⟨c, hc, by rw [if_pos h0]⟩

theorem dirInfo_children_exact_witness :
    ∃ di, Tree.DirInfo egTree "/a/b" egF = some di ∧
      di.Children = qualChildren egTree (DB.Children egDB "/a/b") egF ∧
      ∀ c : String,
        (∃ dcs ∈ di.Children, dcs.Dir = c ∧
          dcs.Count = (egDB.agg c egF).1 ∧ dcs.Size = (egDB.agg c egF).2) ↔
        (c ∈ DB.Children egDB "/a/b" ∧ 0 < (egDB.agg c egF).1) :=
  dirInfo_children_exact egTree egF "/a/b" (by decide) (by decide)

/-- C4: every sequence successfully returned by `Where(dir, F, depth)` is
sorted by size, largest first: for every pair of adjacent entries the
earlier entry's Size is at least the later entry's Size. -/
theorem where_sorted (t : Tree) (f : Filter) (dir : String) (depth : Int)
    (l : List DirCountSize) (h : Tree.Where t dir f depth = some l) :
    List.Chain' (fun a b => b.Size ≤ a.Size) l := by
  obtain ⟨di, dcss, _, _, hsort⟩ := Tree.Where_unsorted h
  subst hsort
  exact (DCSs.sort_sorted dcss).chain'

theorem where_sorted_witness :
    List.Chain' (fun a b => b.Size ≤ a.Size)
      ([⟨"/a/b", 6, 50⟩, ⟨"/a/b/c/d", 4, 43⟩, ⟨"/a/b/e/f/g", 2, 7⟩] :
        List DirCountSize) :=
  where_sorted egTree egF "/a/b" 1
    [⟨"/a/b", 6, 50⟩, ⟨"/a/b/c/d", 4, 43⟩, ⟨"/a/b/e/f/g", 2, 7⟩] (by decide)

/-- C9: for every negative depth the expansion loop executes zero times, so
`Where(dir, F, depth)` returns exactly the same result as
`Where(dir, F, 0)` and no error is raised for the negative value. -/
theorem where_negative_depth (t : Tree) (f : Filter) (dir : String)
    (depth : Int) (hneg : depth < 0) :
    Tree.Where t dir f depth = Tree.Where t dir f 0 := by
  have h0 : depth.toNat = 0 := Int.toNat_eq_zero.2 (Int.le_of_lt hneg)
  simp only [Tree.Where, h0, Int.toNat_zero]

theorem where_negative_depth_witness :
    Tree.Where egTree "/a/b" egF (-3) = Tree.Where egTree "/a/b" egF 0 :=
  where_negative_depth egTree egF "/a/b" (-3) (by decide)

/-- C10: whenever `Where(dir, F, depth)` returns without error, the
returned sequence is non-empty: the collapsed root's Current entry is
appended before any frontier expansion, for every depth. -/
theorem where_nonempty (t : Tree) (f : Filter) (dir : String) (depth : Int)
    (l : List DirCountSize) (h : Tree.Where t dir f depth = some l) :
    l ≠ [] := by
  obtain ⟨di, dcss, h0, hloop, hsort⟩ := Tree.Where_unsorted h
  obtain ⟨ext, hext⟩ := Tree.whereLoop_extends hloop
  subst hsort
  intro hnil
  have hperm := DCSs.sort_perm dcss
  rw [hnil] at hperm
  have hlen := hperm.length_eq
  rw [hext] at hlen
  simp at hlen

theorem where_nonempty_witness :
    ([⟨"/a/b", 6, 50⟩, ⟨"/a/b/c/d", 4, 43⟩, ⟨"/a/b/c/d/2", 2, 28⟩,
      ⟨"/a/b/e/f/g", 2, 7⟩, ⟨"/a/b/c/d/1", 1, 5⟩] :
        List DirCountSize) ≠ [] :=
  where_nonempty egTree egF "/a/b" 2
    [⟨"/a/b", 6, 50⟩, ⟨"/a/b/c/d", 4, 43⟩, ⟨"/a/b/c/d/2", 2, 28⟩,
      ⟨"/a/b/e/f/g", 2, 7⟩, ⟨"/a/b/c/d/1", 1, 5⟩] (by decide)

/-- C5: for every k ≥ 1, the result of `Where(D, F, k)` is, up to the final
sort, the result of `Where(D, F, k-1)` extended by further entries, each of
which is the collapsed Current of a qualifying child expanded from the
previous frontier: the depth-(k-1) entries are unchanged in the depth-k
result and the added entries are collapsed results of children. -/
theorem where_depth_monotone (t : Tree) (f : Filter) (dir : String)
    (k : Int) (hwf : t.db.WF) (hdir : dir ∈ t.db.dirs) (hk : 1 ≤ k) :
    ∃ l1 l2 ext, Tree.Where t dir f (k - 1) = some l1 ∧
      Tree.Where t dir f k = some l2 ∧ List.Perm l2 (l1 ++ ext) ∧
      ∀ e ∈ ext, ∃ d di', Tree.where0 t d f = some di' ∧
        e = di'.Current := by
  obtain ⟨di, dcss1, hres, hloop1, hW1⟩ := Tree.Where_of_mem (k - 1) hwf hdir
  obtain ⟨di2, dcss2, hres2, hloop2, hW2⟩ := Tree.Where_of_mem k hwf hdir
  rw [hres] at hres2
  obtain rfl := Option.some.inj hres2
  have hk' : k.toNat = (k - 1).toNat + 1 := by omega
  rw [hk'] at hloop2
  obtain ⟨r0, ext, h0, hr, hext⟩ := Tree.whereLoop_succ hloop2
  rw [hloop1] at h0
  obtain rfl := Option.some.inj h0
  subst hr
  refine ⟨DCSs.sort dcss1, DCSs.sort (dcss1 ++ ext), ext, hW1, hW2, ?_, hext⟩
  exact (DCSs.sort_perm (dcss1 ++ ext)).trans
    ((DCSs.sort_perm dcss1).append_right ext).symm

theorem where_depth_monotone_witness :
    ∃ l1 l2 ext, Tree.Where egTree "/a/b" egF (1 - 1) = some l1 ∧
      Tree.Where egTree "/a/b" egF 1 = some l2 ∧ List.Perm l2 (l1 ++ ext) ∧
      ∀ e ∈ ext, ∃ d di', Tree.where0 egTree d egF = some di' ∧
        e = di'.Current :=
  where_depth_monotone egTree egF "/a/b" 1 (by decide) (by decide) (by decide)

/-- C7: a directory known to the store whose filtered count is zero is a
legal query: `DirInfo(dir, F)` and `Where(dir, F, depth)` succeed, and
Where yields the single zero-valued result for the requested root;
exclusion of zero-count entries applies only to children, never to the
originally requested root. -/
theorem where_zero_count_root (t : Tree) (f : Filter) (dir : String)
    (depth : Int) (hwf : t.db.WF) (hdir : dir ∈ t.db.dirs)
    (hmono : ∀ p ∈ t.db.childIdx, ∀ c ∈ p.2,
      (t.db.agg c f).1 ≤ (t.db.agg p.1 f).1)
    (hc : (t.db.agg dir f).1 = 0) (hs : (t.db.agg dir f).2 = 0) :
    (∃ di, Tree.DirInfo t dir f = some di) ∧
      Tree.Where t dir f depth = some [⟨dir, 0, 0⟩] := by
  have hqc : qualChildren t (DB.Children t.db dir) f = [] := by
    rw [qualChildren, List.filterMap_eq_nil_iff]
    intro c hcmem
    obtain ⟨p, hp, hp1, hcp⟩ := DB.mem_Children hcmem
    have hle := hmono p hp c hcp
    rw [hp1, hc] at hle
    have h0 : (t.db.agg c f).1 = 0 := Nat.le_zero.1 hle
    simp [h0]
  have hdi := Tree.DirInfo_of_mem f hwf hdir
  rw [hqc, hc, hs] at hdi
  refine ⟨⟨_, hdi⟩, ?_⟩
  obtain ⟨dres, hres, hreach⟩ := Tree.where0_reaches hwf hdi
  have hdres : dres = ⟨⟨dir, 0, 0⟩, []⟩ := by
    cases hreach with
    | done d _ => rfl
    | step d c di' dres' hcc _ _ _ => simp at hcc
  subst hdres
  rw [Tree.Where]
  have hloop := @Tree.whereLoop_nil_frontier t f depth.toNat [⟨dir, 0, 0⟩]
  simp only [hres, hloop, DCSs.sort_singleton]

theorem where_zero_count_root_witness :
    (∃ di, Tree.DirInfo egTree "/zz" egF = some di) ∧
      Tree.Where egTree "/zz" egF 4 = some [⟨"/zz", 0, 0⟩] :=
  where_zero_count_root egTree egF "/zz" 4 (by decide) (by decide)
    (by decide) (by decide) (by decide)

end Dgut
